import Mathlib

/-!
Verification model of the file-matching and traversal engine of the
tokencount repository (`src/files.rs`).

The embedding is shallow:

* Paths are lists of path components (`FsPath := List String`).  A model path
  stands for an already-parsed Rust `Path`; the number of components of the
  Rust path is the length of the list, `Path::file_name` is the last
  component (with `None` for an empty path or a path ending in `..`, as in
  Rust), and `Path::cmp` is componentwise lexicographic comparison.
* The filesystem observed during one call is a finite tree of entries
  (`Entry`).  Each entry records the name, whether the directory entry
  itself is a symlink (`lstat`, i.e. `Path::is_symlink`), and its resolved
  kind (`stat`, i.e. `Path::is_file` / `Path::is_dir`): `file` resolves to a
  regular file, `dir` to a directory (with its listed children and a
  `readable` flag modelling whether `read_dir` succeeds), and `other` to
  anything else (device files, fifos, sockets, broken links), for which
  both `is_file` and `is_dir` are false.
* Panics of the Rust code (`unwrap` on pattern compilation, the
  "Path does not exists" and "recursive flag is false" panics, and the
  `file_name().unwrap()` panic in `matches`) are modelled as values of
  `Except TraversalError`.
* The glob pattern type is a faithful port of the `glob` crate (v0.3)
  `Pattern` used by the source: same token grammar, same parse-time errors,
  and the same backtracking matcher specialised to the default
  `MatchOptions` used by `Pattern::matches` (case sensitive, no literal
  separator, no literal leading dot requirement).
-/

/-- A path, as its list of components.  Components are the strings between
separators; the model keeps paths already normalised the way
`Path::components` yields them. -/
abbrev FsPath := List String

/-- `path.is_separator` for the unix separator used by the `glob` crate. -/
def isSep (c : Char) : Bool := c == '/'

/-- `Path::file_name`: the final component, `none` for an empty path (such
as `/`) or a path ending in `..` — exactly the cases where Rust's
`file_name()` returns `None`. -/
def fileName (path : FsPath) : Option String :=
  match path.getLast? with
  | none => none
  | some s => if s == ".." then none else some s

/-- Errors of the engine.  In the Rust source all four are panics; the spec
names them `InvalidPatternError`, `PathNotFoundError`,
`RecursionRequiredError`, and the `file_name().unwrap()` panic has no
spec name (claim C10). -/
inductive TraversalError where
  | invalidPattern (msg : String)
  | pathNotFound (path : FsPath)
  | recursionRequired (path : FsPath)
  | missingFileName
deriving DecidableEq

/-! ### The glob crate's `Pattern` (dependency of `files.rs`) -/

/-- One entry of a `[...]` character class (glob crate `CharSpecifier`). -/
inductive CharSpecifier where
  | singleChar (c : Char)
  | charRange (lo hi : Char)
deriving DecidableEq

/-- Compiled pattern token (glob crate `PatternToken`). -/
inductive PatternToken where
  | char (c : Char)
  | anyChar
  | anySequence
  | anyRecursiveSequence
  | anyWithin (specs : List CharSpecifier)
  | anyExcept (specs : List CharSpecifier)
deriving DecidableEq

/-- A compiled glob pattern: its token list (the glob crate also stores the
original string and an `is_recursive` flag, neither of which affects
matching). -/
structure Pattern where
  tokens : List PatternToken
deriving DecidableEq

/-- glob crate `parse_char_specifiers`: greedy left-to-right, a `-` with a
character on both sides forms a range, everything else is a single
character. -/
def parseCharSpecifiers : List Char → List CharSpecifier
  | [] => []
  | a :: '-' :: b :: rest => .charRange a b :: parseCharSpecifiers rest
  | a :: rest => .singleChar a :: parseCharSpecifiers rest

/-- glob crate parse error messages (positions are dropped; only the
message reaches the panic in `vec_pattern_to_glob`). -/
def errorWildcards : String := "wildcards are either regular * or recursive **"

def errorRecursiveWildcards : String := "recursive wildcards must form a single path component"

def errorInvalidRange : String := "invalid range pattern"

/-- Collapse rule for a validated `**`: the glob crate pushes
`AnyRecursiveSequence` unless the token list has more than one token and
already ends in one. -/
def pushRecursiveSeq (acc : List PatternToken) : List PatternToken :=
  if acc.length > 1 && acc.head? == some PatternToken.anyRecursiveSequence then acc
  else PatternToken.anyRecursiveSequence :: acc

/-- The parsing loop of glob crate `Pattern::new`.  `acc` holds the tokens
built so far in reverse; `prev` is the character just before the current
position (`none` at the start of the pattern), used by the `**` validity
test.  Division of the `*` runs: three or more stars is an error; exactly
two is a recursive wildcard that must stand alone between separators (or
pattern ends); one is `AnySequence`. -/
def parseTokens : List PatternToken → Option Char → List Char → Except String (List PatternToken)
  | acc, _, [] => .ok acc.reverse
  | acc, _, '?' :: rest => parseTokens (.anyChar :: acc) (some '?') rest
  | _, _, '*' :: '*' :: '*' :: _ => .error errorWildcards
  | acc, prev, '*' :: '*' :: rest =>
    -- `**`: valid only at the pattern start or right after a separator,
    -- and only if followed by a separator (consumed) or the pattern end.
    if prev.isNone || (prev.map isSep).getD false then
      match rest with
      | [] => parseTokens (pushRecursiveSeq acc) none []
      | c :: rest2 =>
        if isSep c then parseTokens (pushRecursiveSeq acc) (some c) rest2
        else .error errorRecursiveWildcards
    else .error errorRecursiveWildcards
  | acc, _, '*' :: rest => parseTokens (.anySequence :: acc) (some '*') rest
  | acc, _, '[' :: '!' :: c1 :: r2 =>
    -- negated class: the first specifier character may be `]`; the closing
    -- bracket is searched from the character after it.
    (match r2.findIdx? (· == ']') with
     | some j =>
       parseTokens (.anyExcept (parseCharSpecifiers (c1 :: r2.take j)) :: acc) (some ']')
         (r2.drop (j + 1))
     | none => .error errorInvalidRange)
  | acc, _, '[' :: c1 :: r2 =>
    -- plain class (c1 ≠ '!' here, the previous arm catches it): same shape.
    (match r2.findIdx? (· == ']') with
     | some j =>
       parseTokens (.anyWithin (parseCharSpecifiers (c1 :: r2.take j)) :: acc) (some ']')
         (r2.drop (j + 1))
     | none => .error errorInvalidRange)
  | _, _, '[' :: _ => .error errorInvalidRange
  | acc, _, c :: rest => parseTokens (.char c :: acc) (some c) rest
termination_by _ _ chars => chars.length
decreasing_by
  all_goals simp [List.length_drop]
  all_goals omega

/-- `Pattern::new`: parse a raw glob string into a compiled pattern, or
report the parse error. -/
def Pattern.new (pattern : String) : Except String Pattern :=
  (parseTokens [] none pattern.toList).map Pattern.mk

/-- glob crate `MatchResult`. -/
inductive MatchResult where
  | matched
  | subPatternDoesntMatch
  | entirePatternDoesntMatch
deriving DecidableEq

/-- glob crate `in_char_specifiers` at the default (case sensitive)
options: first specifier that accepts the character wins. -/
def inCharSpecifiers : List CharSpecifier → Char → Bool
  | [], _ => false
  | .singleChar sc :: rest, c => if c == sc then true else inCharSpecifiers rest c
  | .charRange lo hi :: rest, c => if lo ≤ c && c ≤ hi then true else inCharSpecifiers rest c

/-- One step of `matches_from` for the non-wildcard tokens, at the default
options: separators are never matched by `?` or a character class, a
literal token compares the characters (case sensitively). The sequence
tokens never reach this function. -/
def tokenMatchesChar : PatternToken → Char → Bool
  | .anyChar, c => !isSep c
  | .anyWithin specs, c => !isSep c && inCharSpecifiers specs c
  | .anyExcept specs, c => !isSep c && !inCharSpecifiers specs c
  | .char c2, c => c == c2
  | .anySequence, _ => false
  | .anyRecursiveSequence, _ => false

/-- The candidate resume states a `*` (or `**`) wildcard offers to the rest
of the pattern, in the order the glob crate's inner `while` loop tries
them: after consuming each further character one state (skipped for `**`
when the consumed character is not a separator), and finally the
exhausted-input state, which corresponds to the loop falling through to
the remaining tokens.  Each state is (follows_separator, remaining input).
-/
def starStates (recursive : Bool) : Bool → List Char → List (Bool × List Char)
  | followsSep, [] => [(followsSep, [])]
  | _, c :: cs =>
    let fs := isSep c
    if recursive && !fs then starStates recursive fs cs
    else (fs, cs) :: starStates recursive fs cs

/-- First result that is not `SubPatternDoesntMatch`, as the glob crate's
early `return m`; all candidates failing softly yields
`SubPatternDoesntMatch`. -/
def pickFirst : List MatchResult → MatchResult
  | [] => .subPatternDoesntMatch
  | .subPatternDoesntMatch :: rs => pickFirst rs
  | r :: _ => r

/-- glob crate `matches_from` at the default options.  For a wildcard the
empty match is tried first, then the `starStates` in loop order — the
evaluation of every candidate and taking the first conclusive result is
extensionally the source's short-circuiting backtracking loop, written so
that the recursion is structural on the token list. -/
def matchesFrom : List PatternToken → Bool → List Char → MatchResult
  | [], _, file => if file.isEmpty then .matched else .subPatternDoesntMatch
  | .anySequence :: rest, followsSep, file =>
    pickFirst (matchesFrom rest followsSep file ::
      (starStates false followsSep file).map (fun st => matchesFrom rest st.1 st.2))
  | .anyRecursiveSequence :: rest, followsSep, file =>
    pickFirst (matchesFrom rest followsSep file ::
      (starStates true followsSep file).map (fun st => matchesFrom rest st.1 st.2))
  | _ :: _, _, [] => .entirePatternDoesntMatch
  | tok :: rest, _, c :: cs =>
    if tokenMatchesChar tok c then matchesFrom rest (isSep c) cs
    else .subPatternDoesntMatch

/-- `Pattern::matches`: run the matcher on the whole candidate string with
`follows_separator` initially true. -/
def Pattern.matchesStr (pattern : Pattern) (str : String) : Bool :=
  matchesFrom pattern.tokens true str.toList == .matched

/-! ### `files.rs`: configuration, pattern groups, inclusion decision -/

/-- `FileMatchConfig` (the field `include` is renamed `include_` because
`include` is a Lean keyword). -/
structure FileMatchConfig where
  recursive : Bool
  include_symlinks : Bool
  include_ : List String
  exclude : List String
  exclude_dir : List String

/-- `vec_pattern_to_glob`: compile every raw string; the first failure
panics with the message `Incorrect format of pattern: ...`, modelled as
`InvalidPatternError`. -/
def vec_pattern_to_glob (pattern_vec : List String) : Except TraversalError (List Pattern) :=
  pattern_vec.mapM fun pattern =>
    (match Pattern.new pattern with
     | .ok p => .ok p
     | .error e => .error (.invalidPattern ("Incorrect format of pattern: " ++ e)) :
      Except TraversalError Pattern)

/-- `PathMatcher`: the three compiled pattern groups. -/
structure PathMatcher where
  include_pattern : List Pattern
  exclude_pattern : List Pattern
  exclude_dir_pattern : List Pattern

/-- `PathMatcher::new`: compile the three groups, `include` first, then
`exclude`, then `exclude_dir` (evaluation order of the Rust struct
literal). -/
def PathMatcher.new (include_ exclude exclude_dir : List String) :
    Except TraversalError PathMatcher :=
  match vec_pattern_to_glob include_ with
  | .error e => .error e
  | .ok i =>
    match vec_pattern_to_glob exclude with
    | .error e => .error e
    | .ok ex =>
      match vec_pattern_to_glob exclude_dir with
      | .error e => .error e
      | .ok exd => .ok ⟨i, ex, exd⟩

/-- Free function `matches` of `files.rs`: false for an empty group,
otherwise test every pattern against the path's base name.
`path.file_name().unwrap()` panics when the path has no final component —
modelled by `missingFileName`. -/
def matches_any (pattern_vec : List Pattern) (path : FsPath) : Except TraversalError Bool :=
  if pattern_vec.isEmpty then .ok false
  else
    match fileName path with
    | none => .error .missingFileName
    | some file_name => .ok (pattern_vec.any fun pattern => pattern.matchesStr file_name)

/-! ### The filesystem model -/

/-- One filesystem entry, carrying its observed metadata: `isLink` is the
`lstat` view (`Path::is_symlink`), the constructor is the `stat` view
(`is_file` / `is_dir` follow symlinks, so a symlink to a regular file is
`file` with `isLink = true`).  `other` is an entry that exists but resolves
to neither a regular file nor a directory (device, fifo, socket, broken
link).  `readable` models whether `read_dir` succeeds on the directory. -/
inductive Entry where
  | file (name : String) (isLink : Bool)
  | dir (name : String) (isLink : Bool) (readable : Bool) (children : List Entry)
  | other (name : String) (isLink : Bool)

def Entry.name : Entry → String
  | .file n _ => n
  | .dir n _ _ _ => n
  | .other n _ => n

/-- `Path::is_symlink` (no following). -/
def Entry.isSymlink : Entry → Bool
  | .file _ l => l
  | .dir _ l _ _ => l
  | .other _ l => l

/-- `Path::is_file` (follows symlinks). -/
def Entry.isFile : Entry → Bool
  | .file _ _ => true
  | _ => false

/-- `Path::is_dir` (follows symlinks). -/
def Entry.isDir : Entry → Bool
  | .dir _ _ _ _ => true
  | _ => false

/-- Resolve a path against the filesystem root: follow components through
directories (resolution descends through symlinked directories, as `stat`
does).  `none` models a path that does not exist, which is also what
`std::fs::exists` reports then. -/
def lookupE : Entry → FsPath → Option Entry
  | e, [] => some e
  | .dir _ _ _ children, n :: rest =>
    match children.find? (fun c => c.name == n) with
    | some c => lookupE c rest
    | none => none
  | _, _ :: _ => none

/-- `path.is_file()` for a path whose resolved entry is `e` (`none` when
the path does not exist). -/
def entryIsFile : Option Entry → Bool
  | some e => e.isFile
  | none => false

/-- `path.is_dir()` in the same style. -/
def entryIsDir : Option Entry → Bool
  | some e => e.isDir
  | none => false

/-- `PathMatcher::should_file_be_included`.  The entry resolved at `path`
is passed explicitly (`e`), standing for the `path.is_file()` filesystem
query of the source; the `&&` of the last branch short-circuits exactly as
in Rust, so `exclude_dir` is not evaluated when `exclude` already
matched. -/
def should_file_be_included (m : PathMatcher) (e : Option Entry) (path : FsPath) :
    Except TraversalError Bool :=
  if m.include_pattern.isEmpty && m.exclude_pattern.isEmpty then
    if entryIsFile e then .ok true -- No patterns, include all files
    else
      match matches_any m.exclude_dir_pattern path with
      | .error err => .error err
      | .ok b => .ok !b
  else if !m.include_pattern.isEmpty && entryIsFile e then
    matches_any m.include_pattern path
  else if entryIsFile e then
    match matches_any m.exclude_pattern path with
    | .error err => .error err
    | .ok b => .ok !b
  else
    match matches_any m.exclude_pattern path with
    | .error err => .error err
    | .ok b1 =>
      if b1 then .ok false
      else
        match matches_any m.exclude_dir_pattern path with
        | .error err => .error err
        | .ok b2 => .ok !b2

/-- `get_folder_content`: the children listing; `read_dir` failing (a
non-directory, or an unreadable directory) silently yields the empty
list. -/
def get_folder_content : Entry → List Entry
  | .dir _ _ readable children => if readable then children else []
  | _ => []

/-! ### The traversal -/

/-- The body of the `for entry in folder_content` loop of
`get_matched_files`, for the children of the directory at `dirPath`:
symlinks are skipped first (when not included), accepted subdirectories
are collected for the stack, accepted non-directories are collected as
found files.  Returns (stack pushes with the last pushed child first, i.e.
in pop order, and found files in iteration order). -/
def processChildren (m : PathMatcher) (cfg : FileMatchConfig) (dirPath : FsPath) :
    List Entry → Except TraversalError (List (FsPath × Entry) × List FsPath)
  | [] => .ok ([], [])
  | c :: rest =>
    if c.isSymlink && !cfg.include_symlinks then processChildren m cfg dirPath rest
    else if c.isDir then
      match should_file_be_included m (some c) (dirPath ++ [c.name]) with
      | .error err => .error err
      | .ok b =>
        match processChildren m cfg dirPath rest with
        | .error err => .error err
        | .ok (pairs, files) =>
          .ok ((pairs ++ if b then [(dirPath ++ [c.name], c)] else []), files)
    else
      match should_file_be_included m (some c) (dirPath ++ [c.name]) with
      | .error err => .error err
      | .ok b =>
        match processChildren m cfg dirPath rest with
        | .error err => .error err
        | .ok (pairs, files) =>
          .ok (pairs, (if b then [dirPath ++ [c.name]] else []) ++ files)

/-- The `while let Some(top_folder) = folder_stack.pop()` loop of
`get_matched_files`.  The head of `stack` is the top (Rust pushes and pops
at the back of the `Vec`).  A popped entry that the matcher rejects is
skipped whole; otherwise its children are processed and accepted
subdirectories end up on top of the stack in the source's pop order. -/
def walkLoop (m : PathMatcher) (cfg : FileMatchConfig) :
    List (FsPath × Entry) → List FsPath → Except TraversalError (List FsPath)
  | [], found_files => .ok found_files
  | (top_folder, e) :: rest, found_files =>
    match should_file_be_included m (some e) top_folder with
    | .error err => .error err
    | .ok false => walkLoop m cfg rest found_files
    | .ok true =>
      match hpc : processChildren m cfg top_folder (get_folder_content e) with
      | .error err => .error err
      | .ok (pairs, files) => walkLoop m cfg (pairs ++ rest) (found_files ++ files)
termination_by stack _ => (stack.map fun pr => sizeOf pr.2).sum
decreasing_by
  · have hpos : 0 < sizeOf e := by cases e <;> simp
    simp only [List.map_cons, List.sum_cons]
    omega
  · have key : ∀ (cs : List Entry) (out : List (FsPath × Entry) × List FsPath),
        processChildren m cfg top_folder cs = .ok out →
        (out.1.map fun pr => sizeOf pr.2).sum ≤ (cs.map sizeOf).sum := by
      intro cs
      induction cs with
      | nil =>
        intro out h
        simp only [processChildren] at h
        cases h
        simp
      | cons c cs ih =>
        intro out h
        simp only [processChildren] at h
        split at h
        · have := ih out h
          simp only [List.map_cons, List.sum_cons]
          omega
        · split at h
          · cases hs : should_file_be_included m (some c) (top_folder ++ [c.name]) with
            | error err => rw [hs] at h; cases h
            | ok b =>
              rw [hs] at h
              cases hrec : processChildren m cfg top_folder cs with
              | error err => rw [hrec] at h; cases h
              | ok out' =>
                rw [hrec] at h
                have hb := ih out' hrec
                obtain ⟨pairs, files⟩ := out'
                dsimp only at hb
                cases h
                simp only [List.map_append, List.sum_append, List.map_cons, List.sum_cons]
                cases b <;> simp <;> omega
          · cases hs : should_file_be_included m (some c) (top_folder ++ [c.name]) with
            | error err => rw [hs] at h; cases h
            | ok b =>
              rw [hs] at h
              cases hrec : processChildren m cfg top_folder cs with
              | error err => rw [hrec] at h; cases h
              | ok out' =>
                rw [hrec] at h
                have hb := ih out' hrec
                obtain ⟨pairs, files⟩ := out'
                dsimp only at hb
                cases h
                simp only [List.map_cons, List.sum_cons]
                omega
    have hkey := key (get_folder_content e) (pairs, files) hpc
    dsimp only at hkey
    have hfold : ((get_folder_content e).map sizeOf).sum < sizeOf e := by
      have base : ∀ (cs : List Entry), (cs.map sizeOf).sum < sizeOf cs := by
        intro cs
        induction cs with
        | nil => simp
        | cons c cs ih => simp only [List.map_cons, List.sum_cons]; simp; omega
      cases e with
      | file n l => simp [get_folder_content]
      | other n l => simp [get_folder_content]
      | dir n l readable children =>
        simp only [get_folder_content]
        split
        · have := base children
          simp
          omega
        · simp
    simp only [List.map_append, List.sum_append, List.map_cons, List.sum_cons]
    omega

/-- `get_matched_files`, per initial path (the body of the `flat_map`):
existence check (`fs::exists`, following symlinks — a failure panics
`Path ... does not exists`), the direct-file case, the
directory-without-recursion panic, then the stack traversal seeded with
this root.  An initial path that exists but is neither a file nor a
directory falls through to the traversal, whose listing of it is empty. -/
def processRoot (path_matcher : PathMatcher) (cfg : FileMatchConfig) (fs : Entry)
    (file : FsPath) : Except TraversalError (List FsPath) :=
  match lookupE fs file with
  | none => .error (.pathNotFound file)
  | some e =>
    if e.isFile then
      match should_file_be_included path_matcher (some e) file with
      | .error err => .error err
      | .ok b => .ok (if b then [file] else [])
    else if e.isDir && !cfg.recursive then .error (.recursionRequired file)
    else walkLoop path_matcher cfg [(file, e)] []

/-- String comparison, as Rust's byte-wise `Ord` on path components (UTF-8
byte order equals code-point order, which is Lean's `String` order). -/
def strCompare (s1 s2 : String) : Ordering :=
  if s1 < s2 then .lt else if s1 = s2 then .eq else .gt

/-- `Path::cmp`: componentwise lexicographic comparison. -/
def listCompare : FsPath → FsPath → Ordering
  | [], [] => .eq
  | [], _ :: _ => .lt
  | _ :: _, [] => .gt
  | a :: as_, b :: bs =>
    match strCompare a b with
    | .eq => listCompare as_ bs
    | o => o

/-- The comparator of the final `result.sort_by`: component count first,
full path comparison second. -/
def pathCompare (path1 path2 : FsPath) : Ordering :=
  let component_num1 := path1.length
  let component_num2 := path2.length
  if component_num1 = component_num2 then listCompare path1 path2
  else compare component_num1 component_num2

/-- The comparator as a `should come no later than` test. -/
def pathLe (path1 path2 : FsPath) : Bool :=
  pathCompare path1 path2 != Ordering.gt

/-- Stable insertion: a new element goes before the first existing element
it is `le` to, hence after all elements equal to it that were already
placed. -/
def insertBy (le : FsPath → FsPath → Bool) (x : FsPath) : List FsPath → List FsPath
  | [] => [x]
  | y :: ys => if le x y then x :: y :: ys else y :: insertBy le x ys

/-- Stable insertion sort.  `Vec::sort_by` is a stable sort, and for the
total preorder given by the comparator every stable sort produces the same
sequence, so this is extensionally the source's sort. -/
def sortBy (le : FsPath → FsPath → Bool) : List FsPath → List FsPath
  | [] => []
  | x :: xs => insertBy le x (sortBy le xs)

/-- `get_matched_files`: compile the matcher (panic on a bad pattern
before anything else), process the initial paths in order collecting
their files, and sort the concatenation. -/
def get_matched_files (initial_files : List FsPath) (file_match_config : FileMatchConfig)
    (fs : Entry) : Except TraversalError (List FsPath) :=
  match PathMatcher.new file_match_config.include_ file_match_config.exclude
      file_match_config.exclude_dir with
  | .error err => .error err
  | .ok path_matcher =>
    match initial_files.mapM (processRoot path_matcher file_match_config fs) with
    | .error err => .error err
    | .ok results => .ok (sortBy pathLe results.flatten)

/-! ### Auxiliary notions used by the statements -/

/-- `q` is an ancestor-or-equal prefix of `p` (componentwise). -/
def ancestorLe (q p : FsPath) : Prop := ∃ t, p = q ++ t

/-- `q` is a strict ancestor prefix of `p`. -/
def ancestorLt (q p : FsPath) : Prop := ∃ t, t ≠ [] ∧ p = q ++ t

/-- Wellformed filesystem tree: the children of every directory carry
pairwise distinct names, so resolving the path of a listed child finds
that same child (real directory listings cannot repeat a name). -/
inductive WFE : Entry → Prop where
  | file (n : String) (l : Bool) : WFE (.file n l)
  | other (n : String) (l : Bool) : WFE (.other n l)
  | dir (n : String) (l r : Bool) (children : List Entry)
      (hnames : (children.map Entry.name).Nodup)
      (hch : ∀ c ∈ children, WFE c) : WFE (.dir n l r children)

/-! ### Basic lemmas about the matcher -/

/-- On a path with a base name, `matches` reduces to testing the group
against the base name (also for the empty group, whose `any` is false). -/
theorem matches_any_eval (pattern_vec : List Pattern) (p : FsPath) (name : String)
    (h : fileName p = some name) :
    matches_any pattern_vec p = .ok (pattern_vec.any fun pat => pat.matchesStr name) := by
  cases pattern_vec <;> simp [matches_any, h]

/-- The only failure of `matches` is the missing-base-name panic. -/
theorem matches_any_error_eq (pattern_vec : List Pattern) (p : FsPath) (err : TraversalError)
    (h : matches_any pattern_vec p = .error err) : err = .missingFileName := by
  unfold matches_any at h
  split at h
  · cases h
  · cases hf : fileName p with
    | none => rw [hf] at h; exact (Except.error.injEq _ _ ▸ h).symm ▸ rfl
    | some name => rw [hf] at h; cases h

/-- The only failure of the inclusion decision is the missing-base-name
panic. -/
theorem should_error_eq (m : PathMatcher) (e : Option Entry) (p : FsPath)
    (err : TraversalError)
    (h : should_file_be_included m e p = .error err) : err = .missingFileName := by
  unfold should_file_be_included at h
  split at h
  · split at h
    · cases h
    · cases hm : matches_any m.exclude_dir_pattern p with
      | error e2 => rw [hm] at h; dsimp only at h; cases h; exact matches_any_error_eq _ _ _ hm
      | ok b => rw [hm] at h; dsimp only at h; cases h
  · split at h
    · exact matches_any_error_eq _ _ _ h
    · split at h
      · cases hm : matches_any m.exclude_pattern p with
        | error e2 => rw [hm] at h; dsimp only at h; cases h; exact matches_any_error_eq _ _ _ hm
        | ok b => rw [hm] at h; dsimp only at h; cases h
      · cases hm : matches_any m.exclude_pattern p with
        | error e2 => rw [hm] at h; dsimp only at h; cases h; exact matches_any_error_eq _ _ _ hm
        | ok b1 =>
          rw [hm] at h
          dsimp only at h
          split at h
          · cases h
          · cases hm2 : matches_any m.exclude_dir_pattern p with
            | error e2 =>
              rw [hm2] at h; dsimp only at h; cases h; exact matches_any_error_eq _ _ _ hm2
            | ok b2 => rw [hm2] at h; dsimp only at h; cases h

/-- A directory entry is not a file entry. -/
theorem entryIsFile_false_of_isDir (e : Option Entry) (h : entryIsDir e = true) :
    entryIsFile e = false := by
  cases e with
  | none => cases h
  | some e0 => cases e0 <;> simp_all [entryIsDir, entryIsFile, Entry.isDir, Entry.isFile]

/-- C1: the inclusion decision follows the spec's precedence table: with
both groups empty a file is included and a directory is included unless
`exclude_dir` matches its base name; with a non-empty include group a file
is included iff `include` matches (exclude ignored); with include empty
and exclude non-empty a file is included iff `exclude` does not match; a
directory with include or exclude non-empty is included iff neither
`exclude` nor `exclude_dir` matches its base name. -/
theorem C1_decision_table (m : PathMatcher) (e : Option Entry) (p : FsPath) (name : String)
    (hname : fileName p = some name) :
    (m.include_pattern = [] → m.exclude_pattern = [] →
        (entryIsFile e = true → should_file_be_included m e p = .ok true) ∧
        (entryIsDir e = true →
          should_file_be_included m e p =
            .ok (!m.exclude_dir_pattern.any fun pat => pat.matchesStr name))) ∧
    (m.include_pattern ≠ [] → entryIsFile e = true →
        should_file_be_included m e p =
          .ok (m.include_pattern.any fun pat => pat.matchesStr name)) ∧
    (m.include_pattern = [] → m.exclude_pattern ≠ [] → entryIsFile e = true →
        should_file_be_included m e p =
          .ok (!m.exclude_pattern.any fun pat => pat.matchesStr name)) ∧
    (entryIsDir e = true → (m.include_pattern ≠ [] ∨ m.exclude_pattern ≠ []) →
        should_file_be_included m e p =
          .ok ((!m.exclude_pattern.any fun pat => pat.matchesStr name) &&
               (!m.exclude_dir_pattern.any fun pat => pat.matchesStr name))) := by
  have hED := matches_any_eval m.exclude_dir_pattern p name hname
  have hEx := matches_any_eval m.exclude_pattern p name hname
  have hIn := matches_any_eval m.include_pattern p name hname
  refine ⟨?_, ?_, ?_, ?_⟩
  · intro hi hx
    constructor
    · intro hf
      simp [should_file_be_included, hi, hx, hf]
    · intro hd
      have hf := entryIsFile_false_of_isDir e hd
      simp [should_file_be_included, hi, hx, hf, hED]
  · intro hi hf
    have hi' : m.include_pattern.isEmpty = false := by
      cases hm : m.include_pattern with
      | nil => exact absurd hm hi
      | cons a l => simp
    simp [should_file_be_included, hi', hf, hIn]
  · intro hi hx hf
    have hx' : m.exclude_pattern.isEmpty = false := by
      cases hm : m.exclude_pattern with
      | nil => exact absurd hm hx
      | cons a l => simp
    simp [should_file_be_included, hi, hx', hf, hEx]
  · intro hd hne
    have hf := entryIsFile_false_of_isDir e hd
    have hcond : (m.include_pattern.isEmpty && m.exclude_pattern.isEmpty) = false := by
      cases hne with
      | inl hi => cases hm : m.include_pattern with
        | nil => exact absurd hm hi
        | cons a l => simp
      | inr hx => cases hm : m.exclude_pattern with
        | nil => exact absurd hm hx
        | cons a l => simp
    unfold should_file_be_included
    rw [hcond, hf, hEx, hED]
    simp only [Bool.and_false, Bool.false_eq_true, if_false, reduceIte]
    cases hb : m.exclude_pattern.any fun pat => pat.matchesStr name <;>
      simp only [reduceIte, Bool.not_false, Bool.not_true, Bool.false_and, Bool.true_and] <;>
      rfl

/-- Witness for C1: with include pattern `*.txt` a file named `a.txt`
(two components deep) is included. -/
theorem C1_decision_table_witness :
    should_file_be_included
      ⟨[Pattern.mk [PatternToken.anySequence, PatternToken.char '.', PatternToken.char 't',
          PatternToken.char 'x', PatternToken.char 't']], [], []⟩
      (some (Entry.file "a.txt" false)) ["d", "a.txt"] = .ok true := by
  have h := (C1_decision_table
      ⟨[Pattern.mk [PatternToken.anySequence, PatternToken.char '.', PatternToken.char 't',
          PatternToken.char 'x', PatternToken.char 't']], [], []⟩
      (some (Entry.file "a.txt" false)) ["d", "a.txt"] "a.txt" rfl).2.1 (by decide) rfl
  rw [h]
  rfl

/-- C6: the group test is false on the empty group, otherwise true iff
some compiled pattern matches the final component; and the test reads
nothing but the final component (paths with equal base names are
indistinguishable to it). -/
theorem C6_matches_any_spec (pattern_vec : List Pattern) (p : FsPath) :
    (pattern_vec = [] → matches_any pattern_vec p = .ok false) ∧
    (∀ name, fileName p = some name →
      (matches_any pattern_vec p = .ok true ↔
        pattern_vec ≠ [] ∧ ∃ pat ∈ pattern_vec, pat.matchesStr name = true)) ∧
    (∀ q, fileName q = fileName p → matches_any pattern_vec q = matches_any pattern_vec p) := by
  refine ⟨?_, ?_, ?_⟩
  · rintro rfl; rfl
  · intro name hname
    rw [matches_any_eval _ _ _ hname]
    constructor
    · intro hh
      have hany : (pattern_vec.any fun pat => pat.matchesStr name) = true := by
        injection hh
      refine ⟨?_, List.any_eq_true.mp hany⟩
      rintro rfl
      simp at hany
    · rintro ⟨hne, pat, hmem, hmat⟩
      have hany : (pattern_vec.any fun pat => pat.matchesStr name) = true :=
        List.any_eq_true.mpr ⟨pat, hmem, hmat⟩
      rw [hany]
  · intro q hq
    unfold matches_any
    rw [hq]

/-- Witness for C6: the single-pattern group `a` matches the path `d/a`
through its base name. -/
theorem C6_matches_any_spec_witness :
    matches_any [Pattern.mk [PatternToken.char 'a']] ["d", "a"] = .ok true :=
  ((C6_matches_any_spec [Pattern.mk [PatternToken.char 'a']] ["d", "a"]).2.1 "a" rfl).mpr
    ⟨by decide, Pattern.mk [PatternToken.char 'a'], by decide, by decide⟩

/-- C10: the group test is total on paths with a base name; on a path
without one (the empty path `/`, or one ending in `..`) it panics for
every non-empty group, and only the empty group still answers (false). -/
theorem C10_matches_any_totality (pattern_vec : List Pattern) (p : FsPath) :
    ((fileName p).isSome = true → ∃ b, matches_any pattern_vec p = .ok b) ∧
    (fileName p = none → pattern_vec ≠ [] →
      matches_any pattern_vec p = .error .missingFileName) ∧
    (fileName p = none → pattern_vec = [] → matches_any pattern_vec p = .ok false) := by
  refine ⟨?_, ?_, ?_⟩
  · intro hs
    cases hf : fileName p with
    | none => rw [hf] at hs; cases hs
    | some name => exact ⟨_, matches_any_eval _ _ _ hf⟩
  · intro hf hne
    have hb : pattern_vec.isEmpty = false := by
      cases pattern_vec with
      | nil => exact absurd rfl hne
      | cons a l => rfl
    simp [matches_any, hb, hf]
  · rintro hf rfl; rfl

/-- Witness for C10: a non-empty group evaluated at a path ending in `..`
panics (aborts with the missing-file-name error). -/
theorem C10_matches_any_totality_witness :
    matches_any [Pattern.mk [PatternToken.char 'a']] [".."] = .error .missingFileName :=
  (C10_matches_any_totality [Pattern.mk [PatternToken.char 'a']] [".."]).2.1 rfl (by decide)

/-! ### Pattern compilation errors (C9, C7, C8) -/

/-- Unfolding of `vec_pattern_to_glob` on a cons: the head pattern is
compiled first; its failure panics before the tail is looked at. -/
theorem vec_pattern_to_glob_cons (a : String) (l : List String) :
    vec_pattern_to_glob (a :: l) =
      (match Pattern.new a with
       | .error e => .error (.invalidPattern ("Incorrect format of pattern: " ++ e))
       | .ok p =>
         match vec_pattern_to_glob l with
         | .error err => .error err
         | .ok ps => .ok (p :: ps)) := by
  unfold vec_pattern_to_glob
  rw [List.mapM_cons]
  cases hp : Pattern.new a with
  | error e => simp [hp, Bind.bind, Except.bind]
  | ok p =>
    cases hl : l.mapM (fun pattern =>
        (match Pattern.new pattern with
         | .ok p => .ok p
         | .error e => .error (.invalidPattern ("Incorrect format of pattern: " ++ e)) :
          Except TraversalError Pattern)) with
    | error err => simp [hp, hl, Bind.bind, Except.bind]
    | ok ps => simp [hp, hl, Bind.bind, Except.bind, pure, Except.pure]

/-- Every failure of `vec_pattern_to_glob` is an `InvalidPatternError`. -/
theorem vec_pattern_to_glob_error_kind (l : List String) (err : TraversalError)
    (h : vec_pattern_to_glob l = .error err) : ∃ msg, err = .invalidPattern msg := by
  induction l with
  | nil => cases h
  | cons a l ih =>
    rw [vec_pattern_to_glob_cons] at h
    cases hp : Pattern.new a with
    | error e =>
      rw [hp] at h
      dsimp only at h
      cases h
      exact ⟨_, rfl⟩
    | ok p =>
      rw [hp] at h
      dsimp only at h
      cases hl : vec_pattern_to_glob l with
      | error err2 =>
        rw [hl] at h
        dsimp only at h
        cases h
        exact ih hl
      | ok ps =>
        rw [hl] at h
        dsimp only at h
        cases h

/-- A single syntactically invalid pattern string anywhere in the list
makes `vec_pattern_to_glob` fail with an `InvalidPatternError`. -/
theorem vec_pattern_to_glob_error_of_bad (l : List String) (s : String) (e : String)
    (hs : s ∈ l) (he : Pattern.new s = .error e) :
    ∃ msg, vec_pattern_to_glob l = .error (.invalidPattern msg) := by
  induction l with
  | nil => cases hs
  | cons a l ih =>
    rw [vec_pattern_to_glob_cons]
    cases hp : Pattern.new a with
    | error e2 => exact ⟨_, rfl⟩
    | ok p =>
      dsimp only
      rcases List.mem_cons.mp hs with rfl | hmem
      · rw [hp] at he; cases he
      · obtain ⟨msg, hv⟩ := ih hmem
        rw [hv]
        exact ⟨msg, rfl⟩

/-- If every pattern string compiles, the whole list compiles. -/
theorem vec_pattern_to_glob_ok_of_good (l : List String)
    (h : ∀ s ∈ l, ∃ pat, Pattern.new s = .ok pat) :
    ∃ pats, vec_pattern_to_glob l = .ok pats := by
  induction l with
  | nil => exact ⟨[], rfl⟩
  | cons a l ih =>
    rw [vec_pattern_to_glob_cons]
    obtain ⟨pat, hp⟩ := h a (List.mem_cons_self a l)
    rw [hp]
    dsimp only
    obtain ⟨pats, hl⟩ := ih fun s hs => h s (List.mem_cons_of_mem a hs)
    rw [hl]
    exact ⟨pat :: pats, rfl⟩

/-- Every failure of `PathMatcher::new` is an `InvalidPatternError`. -/
theorem PathMatcher_new_error_kind (i x d : List String) (err : TraversalError)
    (h : PathMatcher.new i x d = .error err) : ∃ msg, err = .invalidPattern msg := by
  unfold PathMatcher.new at h
  cases h1 : vec_pattern_to_glob i with
  | error e1 => rw [h1] at h; cases h; exact vec_pattern_to_glob_error_kind _ _ h1
  | ok p1 =>
    rw [h1] at h
    dsimp only at h
    cases h2 : vec_pattern_to_glob x with
    | error e2 => rw [h2] at h; cases h; exact vec_pattern_to_glob_error_kind _ _ h2
    | ok p2 =>
      rw [h2] at h
      dsimp only at h
      cases h3 : vec_pattern_to_glob d with
      | error e3 => rw [h3] at h; cases h; exact vec_pattern_to_glob_error_kind _ _ h3
      | ok p3 => rw [h3] at h; cases h


/-- Unfolding of an `Except` `mapM` on a cons: the head is processed
first; its failure is the overall failure. -/
theorem exceptMapM_cons {α β ε : Type} (f : α → Except ε β) (a : α) (l : List α) :
    (a :: l).mapM f =
      (match f a with
       | .error err => .error err
       | .ok b =>
         match l.mapM f with
         | .error err => .error err
         | .ok bs => .ok (b :: bs)) := by
  rw [List.mapM_cons]
  cases f a with
  | error err => simp [Bind.bind, Except.bind]
  | ok b =>
    cases l.mapM f with
    | error err => simp [Bind.bind, Except.bind]
    | ok bs => simp [Bind.bind, Except.bind, pure, Except.pure]

/-- A bad pattern string in any of the three groups makes `PathMatcher::new`
fail with an `InvalidPatternError` (whatever other groups contain). -/
theorem PathMatcher_new_error_of_bad (i x d : List String) (s e : String)
    (hs : s ∈ i ++ x ++ d) (he : Pattern.new s = .error e) :
    ∃ msg, PathMatcher.new i x d = .error (.invalidPattern msg) := by
  rcases List.mem_append.mp hs with hix | hd
  · rcases List.mem_append.mp hix with hi | hx
    · obtain ⟨msg, hv⟩ := vec_pattern_to_glob_error_of_bad i s e hi he
      exact ⟨msg, by unfold PathMatcher.new; rw [hv]⟩
    · cases h1 : vec_pattern_to_glob i with
      | error e1 =>
        obtain ⟨msg, hmsg⟩ := vec_pattern_to_glob_error_kind i e1 h1
        exact ⟨msg, by unfold PathMatcher.new; rw [h1, hmsg]⟩
      | ok p1 =>
        obtain ⟨msg, hv⟩ := vec_pattern_to_glob_error_of_bad x s e hx he
        exact ⟨msg, by unfold PathMatcher.new; rw [h1, hv]⟩
  · cases h1 : vec_pattern_to_glob i with
    | error e1 =>
      obtain ⟨msg, hmsg⟩ := vec_pattern_to_glob_error_kind i e1 h1
      exact ⟨msg, by unfold PathMatcher.new; rw [h1, hmsg]⟩
    | ok p1 =>
      cases h2 : vec_pattern_to_glob x with
      | error e2 =>
        obtain ⟨msg, hmsg⟩ := vec_pattern_to_glob_error_kind x e2 h2
        exact ⟨msg, by unfold PathMatcher.new; rw [h1, h2, hmsg]⟩
      | ok p2 =>
        obtain ⟨msg, hv⟩ := vec_pattern_to_glob_error_of_bad d s e hd he
        exact ⟨msg, by unfold PathMatcher.new; rw [h1, h2, hv]⟩

/-- C9: a syntactically invalid glob anywhere in the configuration makes
the whole operation fail with `InvalidPatternError`, uniformly in the
filesystem and in the initial paths (so before any traversal, with no
partial results); and if every pattern string is a valid glob, compilation
of the whole configuration succeeds. -/
theorem C9_invalid_pattern_fatal (cfg : FileMatchConfig) :
    ((∃ s ∈ cfg.include_ ++ cfg.exclude ++ cfg.exclude_dir, ∃ e, Pattern.new s = .error e) →
      ∃ msg, ∀ (initial_files : List FsPath) (fs : Entry),
        get_matched_files initial_files cfg fs = .error (.invalidPattern msg)) ∧
    ((∀ s ∈ cfg.include_ ++ cfg.exclude ++ cfg.exclude_dir, ∃ pat, Pattern.new s = .ok pat) →
      ∃ m, PathMatcher.new cfg.include_ cfg.exclude cfg.exclude_dir = .ok m) := by
  constructor
  · rintro ⟨s, hs, e, he⟩
    obtain ⟨msg, hm⟩ := PathMatcher_new_error_of_bad cfg.include_ cfg.exclude cfg.exclude_dir
      s e hs he
    refine ⟨msg, fun initial_files fs => ?_⟩
    unfold get_matched_files
    rw [hm]
  · intro h
    obtain ⟨p1, h1⟩ := vec_pattern_to_glob_ok_of_good cfg.include_ fun s hs =>
      h s (by simp [hs])
    obtain ⟨p2, h2⟩ := vec_pattern_to_glob_ok_of_good cfg.exclude fun s hs =>
      h s (by simp [hs])
    obtain ⟨p3, h3⟩ := vec_pattern_to_glob_ok_of_good cfg.exclude_dir fun s hs =>
      h s (by simp [hs])
    exact ⟨⟨p1, p2, p3⟩, by unfold PathMatcher.new; rw [h1, h2, h3]⟩

/-- Witness for C9: the configuration with include pattern `[` fails with
the invalid-range compilation error on any filesystem, before looking at
the (nonexistent) root. -/
theorem C9_invalid_pattern_fatal_witness :
    get_matched_files [["a"]] ⟨true, false, ["["], [], []⟩ (Entry.dir "" false true []) =
      .error (.invalidPattern "Incorrect format of pattern: invalid range pattern") := by
  obtain ⟨msg, hmsg0⟩ := (C9_invalid_pattern_fatal ⟨true, false, ["["], [], []⟩).1
    ⟨"[", by simp, errorInvalidRange, by simp [Pattern.new, parseTokens, Except.map]⟩
  simp [get_matched_files, PathMatcher.new, vec_pattern_to_glob, Pattern.new, parseTokens,
    Except.map, List.mapM, List.mapM.loop]
  decide

/-- Counterexample for C7 as stated: the initial path `missing` does not
exist, yet the operation fails with `InvalidPatternError` (pattern
compilation runs first), not with `PathNotFoundError`. -/
theorem C7_counterexample :
    lookupE (Entry.dir "" false true []) ["missing"] = none ∧
    get_matched_files [["missing"]] ⟨true, false, ["["], [], []⟩ (Entry.dir "" false true []) =
      .error (.invalidPattern "Incorrect format of pattern: invalid range pattern") ∧
    ∀ q : FsPath,
      get_matched_files [["missing"]] ⟨true, false, ["["], [], []⟩ (Entry.dir "" false true [])
        ≠ .error (.pathNotFound q) := by
  refine ⟨rfl, ?_, ?_⟩
  · simp [get_matched_files, PathMatcher.new, vec_pattern_to_glob, Pattern.new, parseTokens,
      Except.map, List.mapM, List.mapM.loop]
    decide
  · intro q h
    rw [show get_matched_files [["missing"]] ⟨true, false, ["["], [], []⟩
          (Entry.dir "" false true []) =
        .error (.invalidPattern "Incorrect format of pattern: invalid range pattern") from by
      simp [get_matched_files, PathMatcher.new, vec_pattern_to_glob, Pattern.new, parseTokens,
        Except.map, List.mapM, List.mapM.loop]
      decide] at h
    simp at h

/-- C7 (amended): when pattern compilation succeeds and every root before
the nonexistent one resolves without a fatal error, a nonexistent root
aborts the whole operation with `PathNotFoundError` naming it — no partial
results. -/
theorem C7_path_not_found (cfg : FileMatchConfig) (fs : Entry) (m : PathMatcher)
    (pre post : List FsPath) (p : FsPath)
    (hm : PathMatcher.new cfg.include_ cfg.exclude cfg.exclude_dir = .ok m)
    (hpre : ∀ q ∈ pre, ∃ files, processRoot m cfg fs q = .ok files)
    (hp : lookupE fs p = none) :
    get_matched_files (pre ++ p :: post) cfg fs = .error (.pathNotFound p) := by
  unfold get_matched_files
  rw [hm]
  dsimp only
  have hmap : (pre ++ p :: post).mapM (processRoot m cfg fs) = .error (.pathNotFound p) := by
    induction pre with
    | nil =>
      rw [List.nil_append, exceptMapM_cons]
      unfold processRoot
      rw [hp]
    | cons a pre ih =>
      rw [List.cons_append, exceptMapM_cons]
      obtain ⟨files, hf⟩ := hpre a (List.mem_cons_self a pre)
      rw [hf, ih fun q hq => hpre q (List.mem_cons_of_mem a hq)]
  rw [hmap]

/-- Witness for C7 (amended): a single nonexistent root with an empty
configuration fails with `PathNotFoundError`. -/
theorem C7_path_not_found_witness :
    get_matched_files [["missing"]] ⟨true, false, [], [], []⟩ (Entry.dir "" false true []) =
      .error (.pathNotFound ["missing"]) :=
  C7_path_not_found ⟨true, false, [], [], []⟩ (Entry.dir "" false true []) ⟨[], [], []⟩
    [] [] ["missing"] rfl (fun q hq => absurd hq (by simp)) rfl

/-- A directory entry is not a file entry (entry level). -/
theorem Entry_isFile_false_of_isDir (e : Entry) (h : e.isDir = true) : e.isFile = false := by
  cases e <;> simp_all [Entry.isDir, Entry.isFile]

/-- A root that resolves to a regular file either yields its singleton or
empty result, or panics on a missing base name — never any other error
(in particular the recursive flag is never consulted). -/
theorem processRoot_on_file (m : PathMatcher) (cfg : FileMatchConfig) (fs : Entry) (p : FsPath)
    (hf : entryIsFile (lookupE fs p) = true) :
    (∃ files, processRoot m cfg fs p = .ok files) ∨
      processRoot m cfg fs p = .error .missingFileName := by
  unfold processRoot
  cases hl : lookupE fs p with
  | none => rw [hl] at hf; simp [entryIsFile] at hf
  | some e =>
    rw [hl] at hf
    simp only [entryIsFile] at hf
    cases hs : should_file_be_included m (some e) p with
    | error err =>
      right
      have herr := should_error_eq m (some e) p err hs
      subst herr
      simp [hf, hs]
    | ok b =>
      left
      exact ⟨if b then [p] else [], by simp [hf, hs]⟩

/-- Counterexample for C8 as stated: the second root `d` is a directory
and `recursive` is false, yet the operation fails with
`PathNotFoundError` for the earlier root `missing`, not with
`RecursionRequiredError`. -/
theorem C8_counterexample :
    (⟨false, false, [], [], []⟩ : FileMatchConfig).recursive = false ∧
    lookupE (Entry.dir "" false true [Entry.dir "d" false true []]) ["d"] =
      some (Entry.dir "d" false true []) ∧
    get_matched_files [["missing"], ["d"]] ⟨false, false, [], [], []⟩
      (Entry.dir "" false true [Entry.dir "d" false true []]) =
      .error (.pathNotFound ["missing"]) ∧
    ∀ q : FsPath,
      get_matched_files [["missing"], ["d"]] ⟨false, false, [], [], []⟩
        (Entry.dir "" false true [Entry.dir "d" false true []]) ≠
        .error (.recursionRequired q) := by
  refine ⟨rfl, rfl, rfl, ?_⟩
  intro q h
  rw [show get_matched_files [["missing"], ["d"]] ⟨false, false, [], [], []⟩
        (Entry.dir "" false true [Entry.dir "d" false true []]) =
      .error (.pathNotFound ["missing"]) from rfl] at h
  simp at h

/-- C8 (amended): with patterns compiled and every earlier root resolving
without a fatal error, an existing directory root with `recursive = false`
aborts the whole operation with `RecursionRequiredError`; and when every
root is a regular file, no `RecursionRequiredError` can ever be produced,
whatever the recursive flag. -/
theorem C8_recursion_required :
    (∀ (cfg : FileMatchConfig) (fs : Entry) (m : PathMatcher) (pre post : List FsPath)
        (p : FsPath) (e : Entry),
      PathMatcher.new cfg.include_ cfg.exclude cfg.exclude_dir = .ok m →
      (∀ q ∈ pre, ∃ files, processRoot m cfg fs q = .ok files) →
      lookupE fs p = some e → e.isDir = true → cfg.recursive = false →
      get_matched_files (pre ++ p :: post) cfg fs = .error (.recursionRequired p)) ∧
    (∀ (cfg : FileMatchConfig) (fs : Entry) (initial_files : List FsPath),
      (∀ p ∈ initial_files, entryIsFile (lookupE fs p) = true) →
      ∀ q : FsPath, get_matched_files initial_files cfg fs ≠ .error (.recursionRequired q)) := by
  constructor
  · intro cfg fs m pre post p e hm hpre hl hd hrec
    unfold get_matched_files
    rw [hm]
    dsimp only
    have hmap : (pre ++ p :: post).mapM (processRoot m cfg fs) =
        .error (.recursionRequired p) := by
      induction pre with
      | nil =>
        rw [List.nil_append, exceptMapM_cons]
        have hstep : processRoot m cfg fs p = .error (.recursionRequired p) := by
          have hf := Entry_isFile_false_of_isDir e hd
          simp [processRoot, hl, hf, hd, hrec]
        rw [hstep]
      | cons a pre ih =>
        rw [List.cons_append, exceptMapM_cons]
        obtain ⟨files, hf⟩ := hpre a (List.mem_cons_self a pre)
        rw [hf, ih fun q hq => hpre q (List.mem_cons_of_mem a hq)]
    rw [hmap]
  · intro cfg fs initial_files hfiles q h
    unfold get_matched_files at h
    cases hm : PathMatcher.new cfg.include_ cfg.exclude cfg.exclude_dir with
    | error err =>
      rw [hm] at h
      dsimp only at h
      cases h
      obtain ⟨msg, hmsg⟩ := PathMatcher_new_error_kind _ _ _ _ hm
      cases hmsg
    | ok m =>
      rw [hm] at h
      dsimp only at h
      have hmapM : ∀ (l : List FsPath), (∀ p ∈ l, entryIsFile (lookupE fs p) = true) →
          l.mapM (processRoot m cfg fs) ≠ .error (.recursionRequired q) := by
        intro l
        induction l with
        | nil => intro _ hcon; cases hcon
        | cons a l ih =>
          intro hall hcon
          rw [exceptMapM_cons] at hcon
          rcases processRoot_on_file m cfg fs a (hall a (List.mem_cons_self a l)) with
            ⟨files, hfa⟩ | hfa
          · rw [hfa] at hcon
            dsimp only at hcon
            cases hrest : l.mapM (processRoot m cfg fs) with
            | error err2 =>
              rw [hrest] at hcon
              dsimp only at hcon
              cases hcon
              exact ih (fun p hp => hall p (List.mem_cons_of_mem a hp)) hrest
            | ok bs => rw [hrest] at hcon; dsimp only at hcon; cases hcon
          · rw [hfa] at hcon
            dsimp only at hcon
            cases hcon
      cases hres : initial_files.mapM (processRoot m cfg fs) with
      | error err =>
        rw [hres] at h
        dsimp only at h
        cases h
        exact hmapM initial_files hfiles hres
      | ok results => rw [hres] at h; dsimp only at h; cases h

/-- Witness for C8 (amended): a directory root without the recursive flag
fails with `RecursionRequiredError`; a file root with the same flag never
produces that error. -/
theorem C8_recursion_required_witness :
    get_matched_files [["d"]] ⟨false, false, [], [], []⟩
      (Entry.dir "" false true [Entry.dir "d" false true []]) =
        .error (.recursionRequired ["d"]) ∧
    get_matched_files [["f"]] ⟨false, false, [], [], []⟩
      (Entry.dir "" false true [Entry.file "f" false]) ≠
        .error (.recursionRequired ["f"]) := by
  constructor
  · exact C8_recursion_required.1 ⟨false, false, [], [], []⟩ _ ⟨[], [], []⟩ [] [] ["d"]
      (Entry.dir "d" false true []) rfl (fun q hq => absurd hq (by simp)) rfl rfl rfl
  · exact C8_recursion_required.2 ⟨false, false, [], [], []⟩ _ [["f"]]
      (fun p hp => by simp at hp; subst hp; rfl) ["f"]

/-! ### The sort order (C3) -/

/-- Characterisation of `strCompare` through the linear order on
strings. -/
theorem strCompare_spec (s t : String) :
    (strCompare s t = .lt ↔ s < t) ∧ (strCompare s t = .eq ↔ s = t) ∧
      (strCompare s t = .gt ↔ t < s) := by
  unfold strCompare
  split_ifs with h1 h2
  · refine ⟨by simp [h1], ?_, ?_⟩
    · constructor
      · intro hh; cases hh
      · intro hh; exact absurd hh (ne_of_lt h1)
    · constructor
      · intro hh; cases hh
      · intro hh; exact absurd h1 (lt_asymm hh)
  · subst h2
    refine ⟨?_, by simp, ?_⟩
    · constructor
      · intro hh; cases hh
      · intro hh; exact absurd hh h1
    · constructor
      · intro hh; cases hh
      · intro hh; exact absurd hh h1
  · have h3 : t < s := by
      rcases lt_trichotomy s t with hlt | heq | hgt
      · exact absurd hlt h1
      · exact absurd heq h2
      · exact hgt
    refine ⟨?_, ?_, by simp [h3]⟩
    · constructor
      · intro hh; cases hh
      · intro hh; exact absurd hh h1
    · constructor
      · intro hh; cases hh
      · intro hh; exact absurd hh h2

/-- The empty path never compares greater. -/
theorem listCompare_nil_not_gt (c : FsPath) : listCompare [] c ≠ .gt := by
  cases c <;> simp [listCompare]

/-- Transitivity of `Path::cmp` in its `not greater` form. -/
theorem listCompare_trans_not_gt (a : FsPath) : ∀ b c : FsPath,
    listCompare a b ≠ .gt → listCompare b c ≠ .gt → listCompare a c ≠ .gt := by
  induction a with
  | nil => intro b c _ _; exact listCompare_nil_not_gt c
  | cons a0 as ih =>
    intro b c h1 h2
    cases b with
    | nil => simp [listCompare] at h1
    | cons b0 bs =>
      cases c with
      | nil => simp [listCompare] at h2
      | cons c0 cs =>
        cases hab : strCompare a0 b0 with
        | lt =>
          have hab' : a0 < b0 := (strCompare_spec a0 b0).1.mp hab
          cases hbc : strCompare b0 c0 with
          | lt =>
            have hbc' : b0 < c0 := (strCompare_spec b0 c0).1.mp hbc
            have hac : strCompare a0 c0 = .lt :=
              (strCompare_spec a0 c0).1.mpr (lt_trans hab' hbc')
            simp [listCompare, hac]
          | eq =>
            have hbc' : b0 = c0 := (strCompare_spec b0 c0).2.1.mp hbc
            have hac : strCompare a0 c0 = .lt := (strCompare_spec a0 c0).1.mpr (hbc' ▸ hab')
            simp [listCompare, hac]
          | gt => exact absurd (by simp [listCompare, hbc]) h2
        | eq =>
          have hab' : a0 = b0 := (strCompare_spec a0 b0).2.1.mp hab
          cases hbc : strCompare b0 c0 with
          | lt =>
            have hbc' : b0 < c0 := (strCompare_spec b0 c0).1.mp hbc
            have hac : strCompare a0 c0 = .lt := (strCompare_spec a0 c0).1.mpr (hab' ▸ hbc')
            simp [listCompare, hac]
          | eq =>
            have hbc' : b0 = c0 := (strCompare_spec b0 c0).2.1.mp hbc
            have hac : strCompare a0 c0 = .eq :=
              (strCompare_spec a0 c0).2.1.mpr (hab'.trans hbc')
            have h1' : listCompare as bs ≠ .gt := by
              intro hcon; exact h1 (by simp [listCompare, hab, hcon])
            have h2' : listCompare bs cs ≠ .gt := by
              intro hcon; exact h2 (by simp [listCompare, hbc, hcon])
            intro hcon
            exact ih bs cs h1' h2' (by simpa [listCompare, hac] using hcon)
          | gt => exact absurd (by simp [listCompare, hbc]) h2
        | gt => exact absurd (by simp [listCompare, hab]) h1

/-- Totality of `Path::cmp` in its `not greater` form. -/
theorem listCompare_total_not_gt (a : FsPath) : ∀ b : FsPath,
    listCompare a b ≠ .gt ∨ listCompare b a ≠ .gt := by
  induction a with
  | nil => intro b; left; exact listCompare_nil_not_gt b
  | cons a0 as ih =>
    intro b
    cases b with
    | nil => right; exact listCompare_nil_not_gt (a0 :: as)
    | cons b0 bs =>
      cases hab : strCompare a0 b0 with
      | lt => left; simp [listCompare, hab]
      | gt =>
        right
        have hba : strCompare b0 a0 = .lt :=
          (strCompare_spec b0 a0).1.mpr ((strCompare_spec a0 b0).2.2.mp hab)
        simp [listCompare, hba]
      | eq =>
        have hab' : a0 = b0 := (strCompare_spec a0 b0).2.1.mp hab
        have hba : strCompare b0 a0 = .eq := (strCompare_spec b0 a0).2.1.mpr hab'.symm
        rcases ih bs with h | h
        · left; simpa [listCompare, hab] using h
        · right; simpa [listCompare, hba] using h

/-- Boolean and propositional `not greater` agree. -/
theorem ordering_bne_gt_iff (o : Ordering) : (o != Ordering.gt) = true ↔ o ≠ .gt := by
  cases o <;> simp <;> decide

/-- The comparator test characterised: shorter paths come first, equal
lengths fall back to `Path::cmp`. -/
theorem pathLe_iff (p q : FsPath) :
    pathLe p q = true ↔
      (p.length < q.length ∨ (p.length = q.length ∧ listCompare p q ≠ .gt)) := by
  unfold pathLe pathCompare
  dsimp only
  by_cases hlen : p.length = q.length
  · rw [if_pos hlen, ordering_bne_gt_iff]
    constructor
    · intro h; exact Or.inr ⟨hlen, h⟩
    · rintro (h | ⟨_, h⟩)
      · exact absurd hlen (by omega)
      · exact h
  · rw [if_neg hlen, ordering_bne_gt_iff, ne_eq, Nat.compare_eq_gt]
    constructor
    · intro h
      exact Or.inl (by omega)
    · rintro (h | ⟨heq, _⟩)
      · intro hcon
        omega
      · exact absurd heq hlen

/-- Transitivity of the comparator test. -/
theorem pathLe_trans (p q r : FsPath) (h1 : pathLe p q = true) (h2 : pathLe q r = true) :
    pathLe p r = true := by
  rw [pathLe_iff] at h1 h2 ⊢
  rcases h1 with h1 | ⟨e1, l1⟩
  · rcases h2 with h2 | ⟨e2, l2⟩
    · left; omega
    · left; omega
  · rcases h2 with h2 | ⟨e2, l2⟩
    · left; omega
    · exact Or.inr ⟨e1.trans e2, listCompare_trans_not_gt p q r l1 l2⟩

/-- Totality of the comparator test. -/
theorem pathLe_total (p q : FsPath) : pathLe p q = true ∨ pathLe q p = true := by
  rw [pathLe_iff, pathLe_iff]
  rcases Nat.lt_trichotomy p.length q.length with h | h | h
  · left; left; exact h
  · rcases listCompare_total_not_gt p q with hc | hc
    · left; exact Or.inr ⟨h, hc⟩
    · right; exact Or.inr ⟨h.symm, hc⟩
  · right; left; exact h

/-- Membership through stable insertion. -/
theorem mem_insertBy (le : FsPath → FsPath → Bool) (x y : FsPath) (l : List FsPath) :
    y ∈ insertBy le x l ↔ y = x ∨ y ∈ l := by
  induction l with
  | nil => simp [insertBy]
  | cons z zs ih =>
    unfold insertBy
    by_cases h : le x z = true
    · rw [if_pos h]
      simp
      try tauto
    · rw [if_neg h]
      simp [ih]
      try tauto

/-- Stable insertion into a sorted list keeps it sorted, given a total and
transitive comparator test. -/
theorem pairwise_insertBy (le : FsPath → FsPath → Bool)
    (htrans : ∀ a b c, le a b = true → le b c = true → le a c = true)
    (htot : ∀ a b, le a b = true ∨ le b a = true) (x : FsPath) (l : List FsPath)
    (hl : l.Pairwise fun a b => le a b = true) :
    (insertBy le x l).Pairwise fun a b => le a b = true := by
  induction l with
  | nil => simp [insertBy]
  | cons y ys ih =>
    rw [List.pairwise_cons] at hl
    obtain ⟨hy, hys⟩ := hl
    unfold insertBy
    by_cases hxy : le x y = true
    · rw [if_pos hxy]
      refine List.Pairwise.cons ?_ (List.Pairwise.cons hy hys)
      intro z hz
      rcases List.mem_cons.mp hz with rfl | hz'
      · exact hxy
      · exact htrans x y z hxy (hy z hz')
    · rw [if_neg hxy]
      refine List.Pairwise.cons ?_ (ih hys)
      intro z hz
      rcases (mem_insertBy le x z ys).mp hz with heq | hz'
      · rw [heq]
        rcases htot x y with h | h
        · exact absurd h hxy
        · exact h
      · exact hy z hz'

/-- The insertion sort sorts, for a total and transitive comparator
test. -/
theorem sortBy_pairwise (le : FsPath → FsPath → Bool)
    (htrans : ∀ a b c, le a b = true → le b c = true → le a c = true)
    (htot : ∀ a b, le a b = true ∨ le b a = true) (l : List FsPath) :
    (sortBy le l).Pairwise fun a b => le a b = true := by
  induction l with
  | nil => simp [sortBy]
  | cons x xs ih =>
    unfold sortBy
    exact pairwise_insertBy le htrans htot x (sortBy le xs) ih

/-- The sort keeps exactly the collected paths. -/
theorem mem_sortBy (le : FsPath → FsPath → Bool) (x : FsPath) (l : List FsPath) :
    x ∈ sortBy le l ↔ x ∈ l := by
  induction l with
  | nil => simp [sortBy]
  | cons y ys ih =>
    unfold sortBy
    rw [mem_insertBy, ih]
    simp

/-- C3: any two paths of the returned sequence are ordered by component
count first and by the full lexicographic path comparison second. -/
theorem C3_result_ordering (initial_files : List FsPath) (cfg : FileMatchConfig) (fs : Entry)
    (files : List FsPath) (h : get_matched_files initial_files cfg fs = .ok files) :
    files.Pairwise fun A B =>
      A.length < B.length ∨ (A.length = B.length ∧ listCompare A B ≠ .gt) := by
  unfold get_matched_files at h
  cases hm : PathMatcher.new cfg.include_ cfg.exclude cfg.exclude_dir with
  | error err => rw [hm] at h; cases h
  | ok m =>
    rw [hm] at h
    dsimp only at h
    cases hres : initial_files.mapM (processRoot m cfg fs) with
    | error err => rw [hres] at h; cases h
    | ok results =>
      rw [hres] at h
      dsimp only at h
      cases h
      have hp := sortBy_pairwise pathLe pathLe_trans pathLe_total results.flatten
      exact hp.imp fun hab => (pathLe_iff _ _).mp hab

/-- Witness for C3: two file roots given in reverse order come back sorted
(one component before two, lexicographic within). -/
theorem C3_result_ordering_witness :
    ([["a"], ["d", "b"]] : List FsPath).Pairwise (fun A B =>
      A.length < B.length ∨ (A.length = B.length ∧ listCompare A B ≠ .gt)) :=
  C3_result_ordering [["d", "b"], ["a"]] ⟨true, false, [], [], []⟩
    (Entry.dir "" false true [Entry.file "a" false, Entry.dir "d" false true
      [Entry.file "b" false]]) [["a"], ["d", "b"]] rfl

/-! ### Ancestor-prefix lemmas for the traversal invariants -/

theorem ancestorLe_refl (q : FsPath) : ancestorLe q q := ⟨[], by simp⟩

theorem ancestorLe_of_lt (q p : FsPath) (h : ancestorLt q p) : ancestorLe q p := by
  obtain ⟨t, _, ht⟩ := h
  exact ⟨t, ht⟩

theorem ancestorLt_append_singleton (q : FsPath) (n : String) : ancestorLt q (q ++ [n]) :=
  ⟨[n], by simp, rfl⟩

theorem ancestorLt_of_le_of_lt (a b c : FsPath) (h1 : ancestorLe a b) (h2 : ancestorLt b c) :
    ancestorLt a c := by
  obtain ⟨t1, rfl⟩ := h1
  obtain ⟨t2, hne, rfl⟩ := h2
  exact ⟨t1 ++ t2, by simp [hne], by simp⟩

theorem ancestorLt_of_lt_of_lt (a b c : FsPath) (h1 : ancestorLt a b) (h2 : ancestorLt b c) :
    ancestorLt a c :=
  ancestorLt_of_le_of_lt a b c (ancestorLe_of_lt a b h1) h2

/-- Two ancestors of the same path are comparable. -/
theorem ancestorLe_total_on (a : FsPath) : ∀ (b p : FsPath),
    ancestorLe a p → ancestorLe b p → ancestorLe a b ∨ ancestorLe b a := by
  induction a with
  | nil => intro b p _ _; left; exact ⟨b, rfl⟩
  | cons x a' ih =>
    intro b p ha hb
    cases b with
    | nil => right; exact ⟨x :: a', rfl⟩
    | cons y b' =>
      obtain ⟨t1, h1⟩ := ha
      obtain ⟨t2, h2⟩ := hb
      rw [h1] at h2
      simp only [List.cons_append] at h2
      injection h2 with hxy h2
      subst hxy
      rcases ih b' (a' ++ t1) ⟨t1, rfl⟩ ⟨t2, h2⟩ with h | h
      · left
        obtain ⟨u, hu⟩ := h
        exact ⟨u, by simp [hu]⟩
      · right
        obtain ⟨u, hu⟩ := h
        exact ⟨u, by simp [hu]⟩

/-- The only path strictly between a directory and its immediate child is
the directory itself. -/
theorem ancestor_between_singleton (s q : FsPath) (n : String)
    (h1 : ancestorLe s q) (h2 : ancestorLt q (s ++ [n])) : q = s := by
  obtain ⟨t, rfl⟩ := h1
  obtain ⟨u, hne, hu⟩ := h2
  have h3 : t ++ u = [n] := by
    have := hu
    rw [List.append_assoc] at this
    exact (List.append_cancel_left this.symm)
  have ht : t = [] := by
    cases t with
    | nil => rfl
    | cons a t' =>
      exfalso
      cases u with
      | nil => exact hne rfl
      | cons b u' =>
        have hlen := congrArg List.length h3
        simp at hlen
  simp [ht]

/-- What one directory listing contributes: every stack push is an
accepted, non-skipped subdirectory child and every collected file is an
accepted, non-skipped non-directory child, both living one component
below the popped directory. -/
theorem processChildren_spec (m : PathMatcher) (cfg : FileMatchConfig) (dirPath : FsPath) :
    ∀ (cs : List Entry) (pairs : List (FsPath × Entry)) (files : List FsPath),
    processChildren m cfg dirPath cs = .ok (pairs, files) →
    (∀ pr ∈ pairs, ∃ c ∈ cs, pr = (dirPath ++ [c.name], c) ∧ c.isDir = true ∧
        should_file_be_included m (some c) (dirPath ++ [c.name]) = .ok true ∧
        (cfg.include_symlinks = false → c.isSymlink = false)) ∧
    (∀ p ∈ files, ∃ c ∈ cs, p = dirPath ++ [c.name] ∧ c.isDir = false ∧
        should_file_be_included m (some c) (dirPath ++ [c.name]) = .ok true ∧
        (cfg.include_symlinks = false → c.isSymlink = false)) := by
  intro cs
  induction cs with
  | nil =>
    intro pairs files h
    simp only [processChildren] at h
    cases h
    exact ⟨fun z hz => absurd hz (by simp), fun z hz => absurd hz (by simp)⟩
  | cons c cs ih =>
    intro pairs files h
    simp only [processChildren] at h
    split at h
    · obtain ⟨h1, h2⟩ := ih pairs files h
      refine ⟨fun pr hpr => ?_, fun p hp => ?_⟩
      · obtain ⟨c', hc', rest⟩ := h1 pr hpr
        exact ⟨c', List.mem_cons_of_mem c hc', rest⟩
      · obtain ⟨c', hc', rest⟩ := h2 p hp
        exact ⟨c', List.mem_cons_of_mem c hc', rest⟩
    · rename_i hskip
      split at h
      · rename_i hdir
        cases hs : should_file_be_included m (some c) (dirPath ++ [c.name]) with
        | error err => rw [hs] at h; cases h
        | ok b =>
          rw [hs] at h
          dsimp only at h
          cases hrec : processChildren m cfg dirPath cs with
          | error err => rw [hrec] at h; cases h
          | ok out =>
            rw [hrec] at h
            obtain ⟨pairs', files'⟩ := out
            dsimp only at h
            cases h
            obtain ⟨h1, h2⟩ := ih _ _ hrec
            refine ⟨fun pr hpr => ?_, fun p hp => ?_⟩
            · rcases List.mem_append.mp hpr with hl | hr
              · obtain ⟨c', hc', rest⟩ := h1 pr hl
                exact ⟨c', List.mem_cons_of_mem c hc', rest⟩
              · cases hb : b with
                | false => rw [hb] at hr; cases hr
                | true =>
                  rw [hb] at hr
                  have hpr' : pr = (dirPath ++ [c.name], c) := by simpa using hr
                  subst hpr'
                  refine ⟨c, List.mem_cons_self c cs, rfl, hdir, hb ▸ hs, fun hincl => ?_⟩
                  cases hcl : c.isSymlink with
                  | false => rfl
                  | true => exact absurd (by rw [hcl, hincl]; rfl) hskip
            · obtain ⟨c', hc', rest⟩ := h2 p hp
              exact ⟨c', List.mem_cons_of_mem c hc', rest⟩
      · rename_i hdir
        cases hs : should_file_be_included m (some c) (dirPath ++ [c.name]) with
        | error err => rw [hs] at h; cases h
        | ok b =>
          rw [hs] at h
          dsimp only at h
          cases hrec : processChildren m cfg dirPath cs with
          | error err => rw [hrec] at h; cases h
          | ok out =>
            rw [hrec] at h
            obtain ⟨pairs', files'⟩ := out
            dsimp only at h
            cases h
            obtain ⟨h1, h2⟩ := ih _ _ hrec
            refine ⟨fun pr hpr => ?_, fun p hp => ?_⟩
            · obtain ⟨c', hc', rest⟩ := h1 pr hpr
              exact ⟨c', List.mem_cons_of_mem c hc', rest⟩
            · rcases List.mem_append.mp hp with hl | hr
              · cases hb : b with
                | false => rw [hb] at hl; cases hl
                | true =>
                  rw [hb] at hl
                  have hp' : p = dirPath ++ [c.name] := by simpa using hl
                  subst hp'
                  refine ⟨c, List.mem_cons_self c cs, rfl, ?_, hb ▸ hs, fun hincl => ?_⟩
                  · cases hd : c.isDir with
                    | false => rfl
                    | true => exact absurd hd hdir
                  · cases hcl : c.isSymlink with
                    | false => rfl
                    | true => exact absurd (by rw [hcl, hincl]; rfl) hskip
              · obtain ⟨c', hc', rest⟩ := h2 p hr
                exact ⟨c', List.mem_cons_of_mem c hc', rest⟩

/-- In a listing without duplicate names, looking a listed child's name up
finds that child. -/
theorem find?_name_nodup (cs : List Entry) (c : Entry)
    (hnodup : (cs.map Entry.name).Nodup) (hc : c ∈ cs) :
    cs.find? (fun x => x.name == c.name) = some c := by
  induction cs with
  | nil => cases hc
  | cons d ds ih =>
    rw [List.map_cons, List.nodup_cons] at hnodup
    obtain ⟨hd, hnodup'⟩ := hnodup
    rcases List.mem_cons.mp hc with rfl | hmem
    · simp [List.find?_cons]
    · have hne : (d.name == c.name) = false := by
        rw [beq_eq_false_iff_ne]
        intro heq
        exact hd (heq ▸ List.mem_map_of_mem Entry.name hmem)
      rw [List.find?_cons, hne]
      exact ih hnodup' hmem

/-- Resolution along concatenated paths factors through the intermediate
entry. -/
theorem lookupE_append (a : FsPath) : ∀ (root : Entry) (b : FsPath),
    lookupE root (a ++ b) =
      (match lookupE root a with
       | some e => lookupE e b
       | none => none) := by
  induction a with
  | nil => intro root b; simp [lookupE]
  | cons n a' ih =>
    intro root b
    cases root with
    | file nm l => simp [lookupE]
    | other nm l => simp [lookupE]
    | dir nm l rd children =>
      rw [List.cons_append]
      simp only [lookupE]
      cases hf : children.find? (fun c => c.name == n) with
      | none => simp
      | some c => exact ih c b

/-- Wellformedness is hereditary along resolution. -/
theorem WFE_lookup (p : FsPath) : ∀ (root e : Entry), WFE root →
    lookupE root p = some e → WFE e := by
  induction p with
  | nil =>
    intro root e hwf h
    simp only [lookupE, Option.some.injEq] at h
    exact h ▸ hwf
  | cons n p' ih =>
    intro root e hwf h
    cases root with
    | file nm l => simp [lookupE] at h
    | other nm l => simp [lookupE] at h
    | dir nm l rd children =>
      simp only [lookupE] at h
      cases hf : children.find? (fun c => c.name == n) with
      | none => rw [hf] at h; cases h
      | some c =>
        rw [hf] at h
        have hc : c ∈ children := List.mem_of_find?_eq_some hf
        cases hwf with
        | dir _ _ _ _ hnames hch => exact ih c e (hch c hc) h

/-- A listed child of a wellformed directory is found at the child path. -/
theorem children_lookup (fs : Entry) (top : FsPath) (e c : Entry)
    (hl : lookupE fs top = some e) (hwf : WFE e) (hc : c ∈ get_folder_content e) :
    lookupE fs (top ++ [c.name]) = some c := by
  rw [lookupE_append, hl]
  cases e with
  | file nm l => simp [get_folder_content] at hc
  | other nm l => simp [get_folder_content] at hc
  | dir nm l rd children =>
    simp only [get_folder_content] at hc
    cases rd with
    | false => simp at hc
    | true =>
      simp at hc
      cases hwf with
      | dir _ _ _ _ hnames hch =>
        simp only [lookupE]
        rw [find?_name_nodup children c hnames hc]

/-- When the inclusion decision accepts a non-file entry, `exclude_dir`
did not match its path (in either branch of the decision). -/
theorem should_true_excludeDir (m : PathMatcher) (e : Option Entry) (p : FsPath)
    (hf : entryIsFile e = false) (hs : should_file_be_included m e p = .ok true) :
    matches_any m.exclude_dir_pattern p = .ok false := by
  unfold should_file_be_included at hs
  split at hs
  · simp only [hf, Bool.false_eq_true, if_false] at hs
    cases hm : matches_any m.exclude_dir_pattern p with
    | error err => rw [hm] at hs; cases hs
    | ok b =>
      rw [hm] at hs
      dsimp only at hs
      have hb : (!b) = true := by injection hs
      cases b with
      | false => exact rfl
      | true => simp at hb
  · split at hs
    · rename_i hc2
      rw [hf] at hc2
      simp at hc2
    · split at hs
      · rename_i hc3
        rw [hf] at hc3
        cases hc3
      · cases hm1 : matches_any m.exclude_pattern p with
        | error err => rw [hm1] at hs; cases hs
        | ok b1 =>
          rw [hm1] at hs
          dsimp only at hs
          split at hs
          · cases hs
          · cases hm2 : matches_any m.exclude_dir_pattern p with
            | error err => rw [hm2] at hs; cases hs
            | ok b2 =>
              rw [hm2] at hs
              dsimp only at hs
              have hb : (!b2) = true := by injection hs
              cases b2 with
              | false => exact rfl
              | true => simp at hb

/-- An ancestor is the path itself or a strict ancestor. -/
theorem ancestorLe_eq_or_lt (a b : FsPath) (h : ancestorLe a b) : a = b ∨ ancestorLt a b := by
  obtain ⟨t, rfl⟩ := h
  cases t with
  | nil => left; simp
  | cons x t' => right; exact ⟨x :: t', by simp, rfl⟩

/-- Children of a wellformed entry are wellformed. -/
theorem WFE_child (e c : Entry) (hwf : WFE e) (hc : c ∈ get_folder_content e) : WFE c := by
  cases e with
  | file nm l => simp [get_folder_content] at hc
  | other nm l => simp [get_folder_content] at hc
  | dir nm l rd children =>
    simp only [get_folder_content] at hc
    cases rd with
    | false => simp at hc
    | true =>
      simp at hc
      cases hwf with
      | dir _ _ _ _ hnames hch => exact hch c hc

/-- Invariant of the traversal loop for exclude-dir pruning: every file the
loop will still find below a stack element has, strictly between that
element's path (inclusive) and the file, only directories whose paths the
`exclude_dir` group does not match. -/
theorem walkLoop_excludeDir_chain (m : PathMatcher) (cfg : FileMatchConfig)
    (stack : List (FsPath × Entry)) (found : List FsPath) :
    ∀ files, walkLoop m cfg stack found = .ok files →
    ∀ p ∈ files, p ∈ found ∨ ∃ pr ∈ stack, ancestorLt pr.1 p ∧
      ∀ q, ancestorLe pr.1 q → ancestorLt q p →
        matches_any m.exclude_dir_pattern q = .ok false := by
  induction stack, found using walkLoop.induct m cfg with
  | case1 found =>
    intro files h p hp
    rw [walkLoop] at h
    cases h
    exact Or.inl hp
  | case2 top e rest found errv heq =>
    intro files h p hp
    rw [walkLoop] at h
    rw [heq] at h
    cases h
  | case3 top e rest found heq ih =>
    intro files h p hp
    rw [walkLoop] at h
    rw [heq] at h
    dsimp only at h
    rcases ih files h p hp with hfound | ⟨pr, hpr, hlt, hchain⟩
    · exact Or.inl hfound
    · exact Or.inr ⟨pr, List.mem_cons_of_mem _ hpr, hlt, hchain⟩
  | case4 top e rest found hok errv hpceq =>
    intro files h p hp
    rw [walkLoop] at h
    rw [hok] at h
    dsimp only at h
    rw [hpceq] at h
    cases h
  | case5 top e rest found hok pairs newFiles hpceq ih =>
    intro files h p hp
    rw [walkLoop] at h
    rw [hok] at h
    dsimp only at h
    rw [hpceq] at h
    obtain ⟨hpairs, hnew⟩ := processChildren_spec m cfg top (get_folder_content e)
      pairs newFiles hpceq
    have hEDtop : ∀ c, c ∈ get_folder_content e →
        matches_any m.exclude_dir_pattern top = .ok false := by
      intro c hc
      have hfe : entryIsFile (some e) = false := by
        cases e with
        | file nm l => simp [get_folder_content] at hc
        | other nm l => rfl
        | dir nm l rd children => rfl
      exact should_true_excludeDir m (some e) top hfe hok
    rcases ih files h p hp with hfound | ⟨pr, hpr, hlt, hchain⟩
    · rcases List.mem_append.mp hfound with hold | hnewp
      · exact Or.inl hold
      · obtain ⟨c, hc, hpe, hcdir, hcshould, hcsym⟩ := hnew p hnewp
        refine Or.inr ⟨(top, e), List.mem_cons_self _ _, ?_, ?_⟩
        · exact hpe ▸ ancestorLt_append_singleton top c.name
        · intro q hq1 hq2
          have hq : q = top :=
            ancestor_between_singleton top q c.name hq1 (hpe ▸ hq2)
          rw [hq]
          exact hEDtop c hc
    · rcases List.mem_append.mp hpr with hpm | hrm
      · obtain ⟨c, hc, hpre, hcdir, hcshould, hcsym⟩ := hpairs pr hpm
        subst hpre
        refine Or.inr ⟨(top, e), List.mem_cons_self _ _, ?_, ?_⟩
        · exact ancestorLt_of_lt_of_lt top (top ++ [c.name]) p
            (ancestorLt_append_singleton top c.name) hlt
        · intro q hq1 hq2
          rcases ancestorLe_total_on (top ++ [c.name]) q p
              (ancestorLe_of_lt _ _ hlt) (ancestorLe_of_lt _ _ hq2) with hcase | hcase
          · exact hchain q hcase hq2
          · rcases ancestorLe_eq_or_lt q (top ++ [c.name]) hcase with heq2 | hlt2
            · exact hchain q (heq2 ▸ ancestorLe_refl _) hq2
            · have hq : q = top := ancestor_between_singleton top q c.name hq1 hlt2
              rw [hq]
              exact hEDtop c hc
      · exact Or.inr ⟨pr, List.mem_cons_of_mem _ hrm, hlt, hchain⟩

/-- Invariant of the traversal loop over a wellformed filesystem: every
file the loop finds resolves to a non-directory entry which, when
symlinks are excluded, is not a symlink. -/
theorem walkLoop_entries (m : PathMatcher) (cfg : FileMatchConfig) (fs : Entry)
    (stack : List (FsPath × Entry)) (found : List FsPath) :
    ∀ files, walkLoop m cfg stack found = .ok files →
    (∀ pr ∈ stack, lookupE fs pr.1 = some pr.2 ∧ WFE pr.2) →
    ∀ p ∈ files, p ∈ found ∨ ∃ e2, lookupE fs p = some e2 ∧ e2.isDir = false ∧
      (cfg.include_symlinks = false → e2.isSymlink = false) := by
  induction stack, found using walkLoop.induct m cfg with
  | case1 found =>
    intro files h _ p hp
    rw [walkLoop] at h
    cases h
    exact Or.inl hp
  | case2 top e rest found errv heq =>
    intro files h _ p hp
    rw [walkLoop] at h
    rw [heq] at h
    cases h
  | case3 top e rest found heq ih =>
    intro files h hstack p hp
    rw [walkLoop] at h
    rw [heq] at h
    dsimp only at h
    exact ih files h (fun pr hpr => hstack pr (List.mem_cons_of_mem _ hpr)) p hp
  | case4 top e rest found hok errv hpceq =>
    intro files h _ p hp
    rw [walkLoop] at h
    rw [hok] at h
    dsimp only at h
    rw [hpceq] at h
    cases h
  | case5 top e rest found hok pairs newFiles hpceq ih =>
    intro files h hstack p hp
    rw [walkLoop] at h
    rw [hok] at h
    dsimp only at h
    rw [hpceq] at h
    obtain ⟨htopLook, htopWf⟩ := hstack (top, e) (List.mem_cons_self _ _)
    obtain ⟨hpairs, hnew⟩ := processChildren_spec m cfg top (get_folder_content e)
      pairs newFiles hpceq
    have hstack' : ∀ pr ∈ pairs ++ rest, lookupE fs pr.1 = some pr.2 ∧ WFE pr.2 := by
      intro pr hpr
      rcases List.mem_append.mp hpr with hl | hr
      · obtain ⟨c, hc, hpre, _, _, _⟩ := hpairs pr hl
        subst hpre
        exact ⟨children_lookup fs top e c htopLook htopWf hc, WFE_child e c htopWf hc⟩
      · exact hstack pr (List.mem_cons_of_mem _ hr)
    rcases ih files h hstack' p hp with hfound | hright
    · rcases List.mem_append.mp hfound with hold | hnewp
      · exact Or.inl hold
      · obtain ⟨c, hc, hpe, hcdir, hcshould, hcsym⟩ := hnew p hnewp
        right
        refine ⟨c, ?_, hcdir, hcsym⟩
        rw [hpe]
        exact children_lookup fs top e c htopLook htopWf hc
    · exact Or.inr hright

/-- C2: in the traversal of one root, a path at or below the root whose
`exclude_dir` test matches contributes nothing: no file strictly below it
is ever collected, and if it is the root itself the whole traversal
collects nothing (the pop-check re-validates the root before listing). -/
theorem C2_exclude_dir_prunes (m : PathMatcher) (cfg : FileMatchConfig) (r : FsPath)
    (e : Entry) (files : List FsPath) (q : FsPath)
    (hw : walkLoop m cfg [(r, e)] [] = .ok files)
    (hq : ancestorLe r q)
    (hmatch : matches_any m.exclude_dir_pattern q = .ok true) :
    (∀ p ∈ files, ¬ ancestorLt q p) ∧ (q = r → files = []) := by
  have hinv := walkLoop_excludeDir_chain m cfg [(r, e)] [] files hw
  constructor
  · intro p hp hqp
    rcases hinv p hp with hfound | ⟨pr, hpr, hlt, hchain⟩
    · simp at hfound
    · have hpr' : pr = (r, e) := by simpa using hpr
      subst hpr'
      have hED := hchain q hq hqp
      cases hmatch.symm.trans hED
  · intro hqr
    subst hqr
    cases hfiles : files with
    | nil => rfl
    | cons p0 ps =>
      exfalso
      rw [hfiles] at hinv
      rcases hinv p0 (List.mem_cons_self _ _) with hfound | ⟨pr, hpr, hlt, hchain⟩
      · simp at hfound
      · have hpr' : pr = (q, e) := by simpa using hpr
        subst hpr'
        have hED := hchain q (ancestorLe_refl q) hlt
        cases hmatch.symm.trans hED

/-- Membership extraction for an `Except` `mapM`. -/
theorem exceptMapM_ok_mem {α β ε : Type} (f : α → Except ε β) :
    ∀ (l : List α) (results : List β), l.mapM f = .ok results →
    ∀ r ∈ results, ∃ a ∈ l, f a = .ok r := by
  intro l
  induction l with
  | nil =>
    intro results h r hr
    rw [show ([] : List α).mapM f = .ok [] from rfl] at h
    cases h
    cases hr
  | cons a l ih =>
    intro results h r hr
    rw [exceptMapM_cons] at h
    cases hfa : f a with
    | error err => rw [hfa] at h; cases h
    | ok b =>
      rw [hfa] at h
      dsimp only at h
      cases hrest : l.mapM f with
      | error err => rw [hrest] at h; cases h
      | ok bs =>
        rw [hrest] at h
        dsimp only at h
        cases h
        rcases List.mem_cons.mp hr with rfl | hr'
        · exact ⟨a, List.mem_cons_self _ _, hfa⟩
        · obtain ⟨a', ha', hfa'⟩ := ih bs hrest r hr'
          exact ⟨a', List.mem_cons_of_mem _ ha', hfa'⟩

/-- What one root contributes: either the root itself, directly included
as a regular file, or a walk-found path resolving to an accepted
non-directory entry. -/
theorem processRoot_entries (m : PathMatcher) (cfg : FileMatchConfig) (fs : Entry)
    (a : FsPath) (fr : List FsPath) (hwf : WFE fs)
    (h : processRoot m cfg fs a = .ok fr) :
    ∀ p ∈ fr, (p = a ∧ ∃ e, lookupE fs p = some e ∧ e.isFile = true) ∨
      (∃ e, lookupE fs p = some e ∧ e.isDir = false ∧
        (cfg.include_symlinks = false → e.isSymlink = false)) := by
  unfold processRoot at h
  cases hl : lookupE fs a with
  | none => rw [hl] at h; cases h
  | some e =>
    rw [hl] at h
    dsimp only at h
    by_cases hf : e.isFile = true
    · rw [if_pos hf] at h
      cases hs : should_file_be_included m (some e) a with
      | error err => rw [hs] at h; cases h
      | ok b =>
        rw [hs] at h
        dsimp only at h
        cases h
        intro p hp
        cases b with
        | false => simp at hp
        | true =>
          have hpa : p = a := by simpa using hp
          subst hpa
          exact Or.inl ⟨rfl, e, hl, hf⟩
    · rw [if_neg hf] at h
      split at h
      · cases h
      · intro p hp
        have hinv := walkLoop_entries m cfg fs [(a, e)] [] fr h
          (fun pr hpr => by
            have hpr' : pr = (a, e) := by simpa using hpr
            subst hpr'
            exact ⟨hl, WFE_lookup a fs e hwf hl⟩)
        rcases hinv p hp with hfound | hright
        · simp at hfound
        · exact Or.inr hright

/-- A regular-file entry is not a directory. -/
theorem Entry_isDir_false_of_isFile (e : Entry) (h : e.isFile = true) : e.isDir = false := by
  cases e <;> simp_all [Entry.isDir, Entry.isFile]

/-- Every element of a successful result is either a directly-named root
that is a regular file, or a walk-found path resolving to a non-directory
entry, non-symlink when symlinks are excluded. -/
theorem get_matched_files_entries (initial_files : List FsPath) (cfg : FileMatchConfig)
    (fs : Entry) (files : List FsPath) (hwf : WFE fs)
    (h : get_matched_files initial_files cfg fs = .ok files) :
    ∀ p ∈ files, (p ∈ initial_files ∧ ∃ e, lookupE fs p = some e ∧ e.isFile = true) ∨
      (∃ e, lookupE fs p = some e ∧ e.isDir = false ∧
        (cfg.include_symlinks = false → e.isSymlink = false)) := by
  unfold get_matched_files at h
  cases hm : PathMatcher.new cfg.include_ cfg.exclude cfg.exclude_dir with
  | error err => rw [hm] at h; cases h
  | ok m =>
    rw [hm] at h
    dsimp only at h
    cases hres : initial_files.mapM (processRoot m cfg fs) with
    | error err => rw [hres] at h; cases h
    | ok results =>
      rw [hres] at h
      dsimp only at h
      cases h
      intro p hp
      rw [mem_sortBy] at hp
      rw [List.mem_flatten] at hp
      obtain ⟨fr, hfr, hpfr⟩ := hp
      obtain ⟨a, ha, hpa⟩ := exceptMapM_ok_mem (processRoot m cfg fs) initial_files
        results hres fr hfr
      rcases processRoot_entries m cfg fs a fr hwf hpa p hpfr with ⟨hpe, he⟩ | hright
      · exact Or.inl ⟨hpe ▸ ha, he⟩
      · exact Or.inr hright

/-- C5 (amended): the returned sequence never contains a directory — every
element resolves to a non-directory entry (a regular file for directly
named roots, and for walk results possibly a special non-regular-file
entry, see the counterexample). -/
theorem C5_no_directories (initial_files : List FsPath) (cfg : FileMatchConfig)
    (fs : Entry) (files : List FsPath) (hwf : WFE fs)
    (h : get_matched_files initial_files cfg fs = .ok files) :
    ∀ p ∈ files, ∃ e, lookupE fs p = some e ∧ e.isDir = false := by
  intro p hp
  rcases get_matched_files_entries initial_files cfg fs files hwf h p hp with
    ⟨_, e, hle, hef⟩ | ⟨e, hle, hdir, _⟩
  · exact ⟨e, hle, Entry_isDir_false_of_isFile e hef⟩
  · exact ⟨e, hle, hdir⟩

/-- C4 (amended): with symlinks excluded, walk-discovered entries are
never symlinks; only a directly-named root path can be a symlink (the
source never symlink-checks the roots, see the counterexample). -/
theorem C4_symlink_policy (initial_files : List FsPath) (cfg : FileMatchConfig)
    (fs : Entry) (files : List FsPath) (hwf : WFE fs)
    (hsym : cfg.include_symlinks = false)
    (h : get_matched_files initial_files cfg fs = .ok files) :
    ∀ p ∈ files, p ∈ initial_files ∨ ∃ e, lookupE fs p = some e ∧ e.isSymlink = false := by
  intro p hp
  rcases get_matched_files_entries initial_files cfg fs files hwf h p hp with
    ⟨hpi, _⟩ | ⟨e, hle, _, hsymf⟩
  · exact Or.inl hpi
  · exact Or.inr ⟨e, hle, hsymf hsym⟩

/-- Witness for C2: with exclude-dir pattern `x`, the traversal of `r`
collects only `r/a` and nothing under the pruned `r/x` (which contains
`r/x/keep`). -/
theorem C2_exclude_dir_prunes_witness :
    (∀ p ∈ ([["r", "a"]] : List FsPath), ¬ ancestorLt ["r", "x"] p) ∧
    ((["r", "x"] : FsPath) = ["r"] → ([["r", "a"]] : List FsPath) = []) :=
  C2_exclude_dir_prunes ⟨[], [], [Pattern.mk [PatternToken.char 'x']]⟩
    ⟨true, false, [], [], ["x"]⟩ ["r"]
    (Entry.dir "r" false true [Entry.file "a" false,
      Entry.dir "x" false true [Entry.file "keep" false]])
    [["r", "a"]] ["r", "x"]
    (by simp +decide [walkLoop, processChildren, should_file_be_included, matches_any,
      get_folder_content, entryIsFile, entryIsDir, Entry.isFile, Entry.isDir, Entry.isSymlink,
      Entry.name, fileName, List.getLast?,
      show Pattern.matchesStr ⟨[PatternToken.char 'x']⟩ "a" = false from rfl,
      show Pattern.matchesStr ⟨[PatternToken.char 'x']⟩ "x" = true from rfl,
      show Pattern.matchesStr ⟨[PatternToken.char 'x']⟩ "r" = false from rfl,
      show Pattern.matchesStr ⟨[PatternToken.char 'x']⟩ "keep" = false from rfl])
    ⟨["x"], rfl⟩ rfl

/-- Counterexample for C4 as stated: with `include_symlinks = false` a
directly-named root that is a symlink to a regular file still appears in
the result — roots are never symlink-checked. -/
theorem C4_counterexample :
    (⟨true, false, [], [], []⟩ : FileMatchConfig).include_symlinks = false ∧
    lookupE (Entry.dir "" false true [Entry.file "s" true]) ["s"] =
      some (Entry.file "s" true) ∧
    (Entry.file "s" true).isSymlink = true ∧
    get_matched_files [["s"]] ⟨true, false, [], [], []⟩
      (Entry.dir "" false true [Entry.file "s" true]) = .ok [["s"]] :=
  ⟨rfl, rfl, rfl, rfl⟩

/-- Witness for C4 (amended): a returned path is a root or resolves to a
non-symlink entry. -/
theorem C4_symlink_policy_witness :
    (["f"] : FsPath) ∈ ([["f"]] : List FsPath) ∨
      ∃ e, lookupE (Entry.dir "" false true [Entry.file "f" false]) ["f"] = some e ∧
        e.isSymlink = false :=
  C4_symlink_policy [["f"]] ⟨true, false, [], [], []⟩
    (Entry.dir "" false true [Entry.file "f" false]) [["f"]]
    (WFE.dir "" false true [Entry.file "f" false] (by simp)
      (by intro c hc; simp at hc; subst hc; exact WFE.file "f" false))
    rfl rfl ["f"] (by simp)

/-- Counterexample for C5 as stated: a named pipe (an entry that is
neither a regular file nor a directory) survives the walk's non-directory
branch and is returned, so the result is not made of regular files
only. -/
theorem C5_counterexample :
    get_matched_files [["d"]] ⟨true, false, [], [], []⟩
      (Entry.dir "" false true [Entry.dir "d" false true [Entry.other "fifo" false]]) =
      .ok [["d", "fifo"]] ∧
    lookupE (Entry.dir "" false true [Entry.dir "d" false true [Entry.other "fifo" false]])
      ["d", "fifo"] = some (Entry.other "fifo" false) ∧
    (Entry.other "fifo" false).isFile = false ∧
    (Entry.other "fifo" false).isDir = false := by
  refine ⟨?_, rfl, rfl, rfl⟩
  simp +decide [get_matched_files, PathMatcher.new, vec_pattern_to_glob, Pattern.new,
    parseTokens, Except.map, List.mapM, List.mapM.loop, pure, Except.pure, bind, Except.bind,
    processRoot, lookupE, List.find?, Entry.name, Entry.isFile, Entry.isDir, walkLoop,
    processChildren, should_file_be_included, matches_any, get_folder_content, entryIsFile,
    entryIsDir, fileName, List.getLast?, isSep, Entry.isSymlink, sortBy, insertBy, pathLe,
    pathCompare, listCompare, strCompare]

/-- Witness for C5 (amended): the fifo fixture's returned element resolves
to a non-directory entry. -/
theorem C5_no_directories_witness :
    lookupE (Entry.dir "" false true [Entry.dir "d" false true [Entry.other "fifo" false]])
      ["d", "fifo"] = some (Entry.other "fifo" false) ∧
    (Entry.other "fifo" false).isDir = false := by
  obtain ⟨e, hle, hdir⟩ := C5_no_directories [["d"]] ⟨true, false, [], [], []⟩
    (Entry.dir "" false true [Entry.dir "d" false true [Entry.other "fifo" false]])
    [["d", "fifo"]]
    (WFE.dir "" false true [Entry.dir "d" false true [Entry.other "fifo" false]] (by simp)
      (by
        intro c hc
        simp at hc
        subst hc
        exact WFE.dir "d" false true [Entry.other "fifo" false] (by simp)
          (by intro c2 hc2; simp at hc2; subst hc2; exact WFE.other "fifo" false)))
    (by simp +decide [get_matched_files, PathMatcher.new, vec_pattern_to_glob, Pattern.new,
      parseTokens, Except.map, List.mapM, List.mapM.loop, pure, Except.pure, bind, Except.bind,
      processRoot, lookupE, List.find?, Entry.name, Entry.isFile, Entry.isDir, walkLoop,
      processChildren, should_file_be_included, matches_any, get_folder_content, entryIsFile,
      entryIsDir, fileName, List.getLast?, isSep, Entry.isSymlink, sortBy, insertBy, pathLe,
      pathCompare, listCompare, strCompare])
    ["d", "fifo"] (by simp)
  have h2 : some (Entry.other "fifo" false) = some e := by rw [← hle]; rfl
  injection h2 with h3
  rw [← h3] at hle hdir
  exact ⟨hle, hdir⟩
